import Mathlib

/-!
Verification of the zhgit CLI core against its natural-language specification.

The JavaScript sources under `packages/utils` and `packages/push` are shallowly
embedded as Lean definitions: commit records become a structure, JS `Date`
values become integer millisecond timestamps, JS strings become Lean `String`s
(character-wise, with `toLowerCase` modelled by the per-character ASCII
`Char.toLower`), and the imperative loops become structural recursion or
folds.  Each definition mirrors one source function and keeps its name.
-/

/-- Substring test mirroring JS `String.prototype.includes`:
`strIncludes s pat` is true when `pat` occurs contiguously inside `s`. -/
def includesAux (pat : List Char) : List Char → Bool
  | [] => pat.isEmpty
  | c :: rest => pat.isPrefixOf (c :: rest) || includesAux pat rest

/-- JS `s.includes(pat)`. -/
def strIncludes (s pat : String) : Bool :=
  includesAux pat.data s.data

theorem includesAux_iff_contains (pat l : List Char) :
    includesAux pat l = true ↔ pat <:+: l := by
  induction l with
  | nil =>
    simp [includesAux, List.isEmpty_iff, List.infix_nil]
  | cons c rest ih =>
    simp only [includesAux, Bool.or_eq_true, ih, List.infix_cons_iff,
      List.isPrefixOf_iff_prefix]

/-- A commit record parsed from `git log --pretty=format:%H|%s|%an|%ae|%ad`.
The JS `Date` value is modelled as an integer millisecond timestamp. -/
structure Commit where
  hash : String
  message : String
  author : String
  email : String
  date : Int
deriving Repr, DecidableEq

/-- Result of classifying a commit range, mirroring the object
`{ currentCommits, previousCommits }` returned by `categorizeCommits`. -/
structure Categorized where
  currentCommits : List Commit
  previousCommits : List Commit
deriving Repr, DecidableEq

namespace CommitAnalyzer

/-- One hour in milliseconds, the gap threshold of `heuristicCategorization`. -/
def hourMs : Int := 60 * 60 * 1000

/-- JS `commits.sort((a, b) => b.date - a.date)`: stable sort, newest first. -/
def sortedByDateDesc (commits : List Commit) : List Commit :=
  commits.mergeSort (fun a b => decide (b.date ≤ a.date))

/-- The `for (let i = 1; ...)` loop of `heuristicCategorization`: walking the
adjacent pairs of the sorted list, return the loop index of the first pair
whose gap exceeds one hour; the loop variable `splitIndex` stays at its
initial value `1` when no such pair exists. -/
def splitLoop : List (Commit × Commit) → Nat → Nat
  | [], _ => 1
  | (a, b) :: rest, i =>
    if a.date - b.date > hourMs then i else splitLoop rest (i + 1)

/-- Adjacent pairs `(sorted[i-1], sorted[i])` scanned by the split loop. -/
def adjacentPairs (l : List Commit) : List (Commit × Commit) :=
  l.zip l.tail

/-- `CommitAnalyzer.heuristicCategorization(commits, originalBranch)`:
lists of at most 3 commits are wholly current; otherwise sort newest first
and split at `splitLoop` of the adjacent pairs. -/
def heuristicCategorization (commits : List Commit) : Categorized :=
  if commits.length ≤ 3 then
    { currentCommits := commits, previousCommits := [] }
  else
    { currentCommits :=
        (sortedByDateDesc commits).take
          (splitLoop (adjacentPairs (sortedByDateDesc commits)) 1)
      previousCommits :=
        (sortedByDateDesc commits).drop
          (splitLoop (adjacentPairs (sortedByDateDesc commits)) 1) }

/-- `CommitAnalyzer.categorizeCommits(commits, branchPoint, originalBranch)`:
with a branch point, commits strictly after it are current and the rest
previous (the `forEach` push loop is a partition); with no branch point the
heuristic clustering is used. -/
def categorizeCommits (commits : List Commit) (branchPoint : Option Int) :
    Categorized :=
  match branchPoint with
  | none => heuristicCategorization commits
  | some bp =>
    let parts := commits.partition (fun c => decide (c.date > bp))
    { currentCommits := parts.1, previousCommits := parts.2 }

/-- Declarative description of the split point: index (into the pair list) of
the first adjacent pair whose gap exceeds one hour. -/
def firstGapIdx (pairs : List (Commit × Commit)) : Option Nat :=
  pairs.findIdx? (fun p => decide (p.1.date - p.2.date > hourMs))

theorem splitLoop_eq_firstGapIdx (pairs : List (Commit × Commit)) :
    ∀ i, splitLoop pairs i = ((firstGapIdx pairs).map (i + ·)).getD 1 := by
  induction pairs with
  | nil => intro i; simp [splitLoop, firstGapIdx]
  | cons p rest ih =>
    intro i
    obtain ⟨a, b⟩ := p
    simp only [splitLoop, firstGapIdx, List.findIdx?_cons]
    by_cases h : a.date - b.date > hourMs
    · simp [h]
    · simp only [decide_eq_true_eq, if_neg h, ih (i + 1), List.findIdx?_succ]
      unfold firstGapIdx
      cases List.findIdx? (fun p => decide (p.1.date - p.2.date > hourMs)) rest with
      | none => rfl
      | some j =>
        simp only [Option.map_some', Option.getD_some]
        omega

theorem heuristic_append_perm (commits : List Commit) :
    ((heuristicCategorization commits).currentCommits ++
      (heuristicCategorization commits).previousCommits).Perm commits := by
  unfold heuristicCategorization
  split
  · simp
  · simp only [List.take_append_drop]
    exact List.mergeSort_perm commits _

theorem hash_disjoint_of_no_common {cur prev commits : List Commit}
    (hnd : (commits.map Commit.hash).Nodup)
    (hcur : ∀ a ∈ cur, a ∈ commits) (hprev : ∀ b ∈ prev, b ∈ commits)
    (hne : ∀ a ∈ cur, ∀ b ∈ prev, a ≠ b) :
    (cur.map Commit.hash).Disjoint (prev.map Commit.hash) := by
  intro h hmem1 hmem2
  obtain ⟨a, ha, rfl⟩ := List.mem_map.1 hmem1
  obtain ⟨b, hb, hab⟩ := List.mem_map.1 hmem2
  exact hne a ha b hb (List.inj_on_of_nodup_map hnd (hcur a ha) (hprev b hb) hab.symm)

theorem heuristic_hash_disjoint (commits : List Commit)
    (hnd : (commits.map Commit.hash).Nodup) :
    ((heuristicCategorization commits).currentCommits.map Commit.hash).Disjoint
      ((heuristicCategorization commits).previousCommits.map Commit.hash) := by
  unfold heuristicCategorization
  split
  · simp [List.Disjoint]
  · have hperm : (sortedByDateDesc commits).Perm commits :=
      List.mergeSort_perm commits _
    have hnds : ((sortedByDateDesc commits).map Commit.hash).Nodup :=
      ((hperm.map Commit.hash).nodup_iff).2 hnd
    simp only [List.map_take, List.map_drop]
    exact List.disjoint_take_drop hnds (Nat.le_refl _)

end CommitAnalyzer

/-- C1: for every commit list and branch point (timestamp or null), the
classification of `categorizeCommits` (heuristic clustering when the branch
point is null) is a strict partition: `currentCommits ++ previousCommits` is a
permutation of the input (no duplication, no omission), and — given the
commits' hashes are distinct, as 40-hex git hashes are — the hash sets of the
two classes are disjoint. -/
theorem categorizeCommits_strict_partition
    (commits : List Commit) (branchPoint : Option Int) :
    ((CommitAnalyzer.categorizeCommits commits branchPoint).currentCommits ++
      (CommitAnalyzer.categorizeCommits commits branchPoint).previousCommits).Perm
        commits ∧
    ((commits.map Commit.hash).Nodup →
      ((CommitAnalyzer.categorizeCommits commits branchPoint).currentCommits.map
          Commit.hash).Disjoint
        ((CommitAnalyzer.categorizeCommits commits branchPoint).previousCommits.map
          Commit.hash)) := by
  match branchPoint with
  | none =>
    exact ⟨CommitAnalyzer.heuristic_append_perm commits,
      fun hnd => CommitAnalyzer.heuristic_hash_disjoint commits hnd⟩
  | some bp =>
    constructor
    · simp only [CommitAnalyzer.categorizeCommits, List.partition_eq_filter_filter]
      exact List.filter_append_perm _ commits
    · intro hnd
      simp only [CommitAnalyzer.categorizeCommits, List.partition_eq_filter_filter]
      refine CommitAnalyzer.hash_disjoint_of_no_common hnd ?_ ?_ ?_
      · exact fun a ha => (List.mem_filter.1 ha).1
      · exact fun b hb => (List.mem_filter.1 hb).1
      · intro a ha b hb hab
        subst hab
        have h1 := (List.mem_filter.1 ha).2
        have h2 := (List.mem_filter.1 hb).2
        simp only [Function.comp] at h2
        rw [h1] at h2
        simp at h2

/-- Witness for C1 at a concrete input: three commits around branch point 15,
with distinct hashes, are split into a permutation with disjoint hash sets. -/
theorem categorizeCommits_strict_partition_witness :
    (((CommitAnalyzer.categorizeCommits
        [⟨"h1", "m1", "u", "e", 20⟩, ⟨"h2", "m2", "u", "e", 10⟩,
         ⟨"h3", "m3", "u", "e", 30⟩] (some 15)).currentCommits ++
      (CommitAnalyzer.categorizeCommits
        [⟨"h1", "m1", "u", "e", 20⟩, ⟨"h2", "m2", "u", "e", 10⟩,
         ⟨"h3", "m3", "u", "e", 30⟩] (some 15)).previousCommits).Perm
        [⟨"h1", "m1", "u", "e", 20⟩, ⟨"h2", "m2", "u", "e", 10⟩,
         ⟨"h3", "m3", "u", "e", 30⟩]) ∧
    ((CommitAnalyzer.categorizeCommits
        [⟨"h1", "m1", "u", "e", 20⟩, ⟨"h2", "m2", "u", "e", 10⟩,
         ⟨"h3", "m3", "u", "e", 30⟩] (some 15)).currentCommits.map
        Commit.hash).Disjoint
      ((CommitAnalyzer.categorizeCommits
        [⟨"h1", "m1", "u", "e", 20⟩, ⟨"h2", "m2", "u", "e", 10⟩,
         ⟨"h3", "m3", "u", "e", 30⟩] (some 15)).previousCommits.map
        Commit.hash) :=
  ⟨(categorizeCommits_strict_partition _ (some 15)).1,
   (categorizeCommits_strict_partition _ (some 15)).2 (by decide)⟩

unseal List.merge List.mergeSort in
/-- C2 counterexample: four commits (more than 3) all timestamped within one
hour of each other.  The claim predicts that, with no adjacent gap exceeding
one hour, all commits are classified as current; the code instead leaves the
split index at its default 1, so three commits land in `previousCommits`. -/
theorem heuristicCategorization_no_gap_not_all_current :
    (CommitAnalyzer.firstGapIdx (CommitAnalyzer.adjacentPairs
      (CommitAnalyzer.sortedByDateDesc
        [⟨"a1", "m", "u", "e", 3000⟩, ⟨"a2", "m", "u", "e", 2000⟩,
         ⟨"a3", "m", "u", "e", 1000⟩, ⟨"a4", "m", "u", "e", 0⟩])) = none) ∧
    (CommitAnalyzer.heuristicCategorization
      [⟨"a1", "m", "u", "e", 3000⟩, ⟨"a2", "m", "u", "e", 2000⟩,
       ⟨"a3", "m", "u", "e", 1000⟩, ⟨"a4", "m", "u", "e", 0⟩]).previousCommits ≠ [] := by
  decide

/-- C2 (amended): heuristic classification of a commit list with no resolved
branch point: at most 3 commits means all current; otherwise the list is
sorted newest first and split after position `j` where pair `j` is the first
adjacent pair with a gap over one hour; when no such gap exists the split
index stays at its default 1, so only the newest commit is current and the
rest are historical. -/
theorem heuristicCategorization_split_rule (commits : List Commit) :
    CommitAnalyzer.heuristicCategorization commits =
      if commits.length ≤ 3 then
        { currentCommits := commits, previousCommits := [] }
      else
        match CommitAnalyzer.firstGapIdx
            (CommitAnalyzer.adjacentPairs (CommitAnalyzer.sortedByDateDesc commits)) with
        | some j =>
          { currentCommits := (CommitAnalyzer.sortedByDateDesc commits).take (j + 1)
            previousCommits := (CommitAnalyzer.sortedByDateDesc commits).drop (j + 1) }
        | none =>
          { currentCommits := (CommitAnalyzer.sortedByDateDesc commits).take 1
            previousCommits := (CommitAnalyzer.sortedByDateDesc commits).drop 1 } := by
  unfold CommitAnalyzer.heuristicCategorization
  split
  · rfl
  · rw [CommitAnalyzer.splitLoop_eq_firstGapIdx]
    cases CommitAnalyzer.firstGapIdx
        (CommitAnalyzer.adjacentPairs (CommitAnalyzer.sortedByDateDesc commits)) with
    | none => rfl
    | some j =>
      simp only [Option.map_some', Option.getD_some, Nat.add_comm 1 j]

/-- The eight histogram buckets of `analyzeCommitTypes`. -/
inductive CommitType
  | feat
  | fix
  | docs
  | style
  | refactor
  | test
  | chore
  | other
deriving Repr, DecidableEq

/-- The counter object initialised to all zeroes in `analyzeCommitTypes`. -/
structure CommitTypes where
  feat : Nat
  fix : Nat
  docs : Nat
  style : Nat
  refactor : Nat
  test : Nat
  chore : Nat
  other : Nat
deriving Repr, DecidableEq

namespace CommitAnalyzer

/-- The `forEach` body of `analyzeCommitTypes`: lower-case the subject and
bump the counter of the first matching prefix, else `other`. -/
def bumpType (types : CommitTypes) (message : String) : CommitTypes :=
  if message.toLower.startsWith "feat" then { types with feat := types.feat + 1 }
  else if message.toLower.startsWith "fix" then { types with fix := types.fix + 1 }
  else if message.toLower.startsWith "docs" then { types with docs := types.docs + 1 }
  else if message.toLower.startsWith "style" then { types with style := types.style + 1 }
  else if message.toLower.startsWith "refactor" then { types with refactor := types.refactor + 1 }
  else if message.toLower.startsWith "test" then { types with test := types.test + 1 }
  else if message.toLower.startsWith "chore" then { types with chore := types.chore + 1 }
  else { types with other := types.other + 1 }

/-- `CommitAnalyzer.analyzeCommitTypes(commits)`. -/
def analyzeCommitTypes (commits : List Commit) : CommitTypes :=
  commits.foldl (fun acc c => bumpType acc c.message) ⟨0, 0, 0, 0, 0, 0, 0, 0⟩

/-- The bucket a single subject line falls into: the first of the ordered
prefixes `feat, fix, docs, style, refactor, test, chore` matched by the
lower-cased subject, else `other`. -/
def classifyType (message : String) : CommitType :=
  if message.toLower.startsWith "feat" then .feat
  else if message.toLower.startsWith "fix" then .fix
  else if message.toLower.startsWith "docs" then .docs
  else if message.toLower.startsWith "style" then .style
  else if message.toLower.startsWith "refactor" then .refactor
  else if message.toLower.startsWith "test" then .test
  else if message.toLower.startsWith "chore" then .chore
  else .other

/-- Projection of the counter for one bucket. -/
def typeCount (types : CommitTypes) : CommitType → Nat
  | .feat => types.feat
  | .fix => types.fix
  | .docs => types.docs
  | .style => types.style
  | .refactor => types.refactor
  | .test => types.test
  | .chore => types.chore
  | .other => types.other

/-- Sum of all eight counters. -/
def typesTotal (types : CommitTypes) : Nat :=
  types.feat + types.fix + types.docs + types.style + types.refactor +
    types.test + types.chore + types.other

/-- Incrementing one bucket of the counter object. -/
def incrType (types : CommitTypes) : CommitType → CommitTypes
  | .feat => { types with feat := types.feat + 1 }
  | .fix => { types with fix := types.fix + 1 }
  | .docs => { types with docs := types.docs + 1 }
  | .style => { types with style := types.style + 1 }
  | .refactor => { types with refactor := types.refactor + 1 }
  | .test => { types with test := types.test + 1 }
  | .chore => { types with chore := types.chore + 1 }
  | .other => { types with other := types.other + 1 }

theorem bumpType_eq_incr (types : CommitTypes) (m : String) :
    bumpType types m = incrType types (classifyType m) := by
  unfold bumpType classifyType
  split_ifs <;> rfl

theorem typeCount_incrType (types : CommitTypes) (t ty : CommitType) :
    typeCount (incrType types t) ty =
      typeCount types ty + (if t = ty then 1 else 0) := by
  cases t <;> cases ty <;> rfl

theorem typeCount_bumpType (types : CommitTypes) (m : String) (ty : CommitType) :
    typeCount (bumpType types m) ty =
      typeCount types ty + (if classifyType m = ty then 1 else 0) := by
  rw [bumpType_eq_incr, typeCount_incrType]

theorem typesTotal_incrType (types : CommitTypes) (t : CommitType) :
    typesTotal (incrType types t) = typesTotal types + 1 := by
  cases t <;> simp only [incrType, typesTotal] <;> omega

theorem typesTotal_bumpType (types : CommitTypes) (m : String) :
    typesTotal (bumpType types m) = typesTotal types + 1 := by
  rw [bumpType_eq_incr, typesTotal_incrType]

theorem typeCount_foldl (commits : List Commit) :
    ∀ (init : CommitTypes) (ty : CommitType),
      typeCount (commits.foldl (fun acc c => bumpType acc c.message) init) ty =
        typeCount init ty +
          commits.countP (fun c => decide (classifyType c.message = ty)) := by
  induction commits with
  | nil => intro init ty; simp
  | cons c rest ih =>
    intro init ty
    simp only [List.foldl_cons, List.countP_cons, ih, typeCount_bumpType,
      decide_eq_true_eq]
    by_cases h : classifyType c.message = ty
    · simp [h]
      omega
    · simp [h]

theorem typesTotal_foldl (commits : List Commit) :
    ∀ init : CommitTypes,
      typesTotal (commits.foldl (fun acc c => bumpType acc c.message) init) =
        typesTotal init + commits.length := by
  induction commits with
  | nil => intro init; simp
  | cons c rest ih =>
    intro init
    simp only [List.foldl_cons, List.length_cons, ih, typesTotal_bumpType]
    omega

end CommitAnalyzer

/-- C10: the commit-type histogram counts every commit in exactly one bucket —
the first of the ordered prefixes `feat, fix, docs, style, refactor, test,
chore` that the lower-cased subject starts with, else `other` — so each
counter equals the number of commits classified into it and the eight
counters sum to the number of input commits. -/
theorem analyzeCommitTypes_partition (commits : List Commit) :
    CommitAnalyzer.typesTotal (CommitAnalyzer.analyzeCommitTypes commits) =
        commits.length ∧
      ∀ ty : CommitType,
        CommitAnalyzer.typeCount (CommitAnalyzer.analyzeCommitTypes commits) ty =
          commits.countP
            (fun c => decide (CommitAnalyzer.classifyType c.message = ty)) := by
  constructor
  · rw [CommitAnalyzer.analyzeCommitTypes, CommitAnalyzer.typesTotal_foldl]
    simp [CommitAnalyzer.typesTotal]
  · intro ty
    rw [CommitAnalyzer.analyzeCommitTypes, CommitAnalyzer.typeCount_foldl]
    cases ty <;> simp [CommitAnalyzer.typeCount]

namespace GitUtils

/-- Characters matched by the JS character class `[~^:?*[\\\s]` used by both
`isValidBranchName` and `generateSafeBranchName`: the seven listed symbols
plus whitespace (modelled as the ASCII whitespace characters). -/
def forbiddenChar (c : Char) : Bool :=
  c = '~' || c = '^' || c = ':' || c = '?' || c = '*' || c = '[' || c = '\\' ||
    c = ' ' || c = '\t' || c = '\n' || c = '\r' || c = '\x0b' || c = '\x0c'

theorem char_eq_of_toNat_eq {c d : Char} (h : c.toNat = d.toNat) : c = d :=
  Char.ext (UInt32.ext h)

theorem forbiddenChar_toNat {c : Char} (h : forbiddenChar c = true) :
    c.toNat = 126 ∨ c.toNat = 94 ∨ c.toNat = 58 ∨ c.toNat = 63 ∨ c.toNat = 42 ∨
      c.toNat = 91 ∨ c.toNat = 92 ∨ c.toNat = 32 ∨ c.toNat = 9 ∨ c.toNat = 10 ∨
      c.toNat = 13 ∨ c.toNat = 11 ∨ c.toNat = 12 := by
  unfold forbiddenChar at h
  simp only [Bool.or_eq_true, decide_eq_true_eq] at h
  rcases h with ((((((((((((h|h)|h)|h)|h)|h)|h)|h)|h)|h)|h)|h)|h) <;> subst h <;> decide

theorem ofNat_toNat_valid (n : Nat) (hv : Nat.isValidChar n) :
    (Char.ofNat n).toNat = n := by
  rw [Char.ofNat, dif_pos hv]
  simp [Char.ofNatAux, Char.toNat, UInt32.toNat, BitVec.toNat_ofNatLt]

theorem toLower_of_upper {c : Char} (h : 65 ≤ c.toNat ∧ c.toNat ≤ 90) :
    (Char.toLower c).toNat = c.toNat + 32 := by
  have hv : Nat.isValidChar (c.toNat + 32) := Or.inl (by omega)
  simp only [Char.toLower, ge_iff_le]
  rw [if_pos ⟨h.1, h.2⟩]
  exact ofNat_toNat_valid _ hv

theorem toLower_eq_self {c : Char} (h : ¬(65 ≤ c.toNat ∧ c.toNat ≤ 90)) :
    Char.toLower c = c := by
  simp only [Char.toLower, ge_iff_le]
  rw [if_neg fun hc => h ⟨hc.1, hc.2⟩]

theorem toLower_cases (c : Char) :
    Char.toLower c = c ∨
      (97 ≤ (Char.toLower c).toNat ∧ (Char.toLower c).toNat ≤ 122 ∧
        65 ≤ c.toNat ∧ c.toNat ≤ 90) := by
  by_cases h : 65 ≤ c.toNat ∧ c.toNat ≤ 90
  · right
    rw [toLower_of_upper h]
    omega
  · left
    exact toLower_eq_self h

theorem forbiddenChar_toLower (c : Char) :
    forbiddenChar (Char.toLower c) = forbiddenChar c := by
  rcases toLower_cases c with h | ⟨h1, h2, h3, h4⟩
  · rw [h]
  · have hl : forbiddenChar (Char.toLower c) = false := by
      cases hfc : forbiddenChar (Char.toLower c) with
      | false => rfl
      | true => have := forbiddenChar_toNat hfc; omega
    have hr : forbiddenChar c = false := by
      cases hfc : forbiddenChar c with
      | false => rfl
      | true => have := forbiddenChar_toNat hfc; omega
    rw [hl, hr]

theorem toLower_eq_low_iff {c d : Char}
    (hd : d.toNat < 65 ∨ (90 < d.toNat ∧ d.toNat < 97) ∨ 122 < d.toNat) :
    Char.toLower c = d ↔ c = d := by
  rcases toLower_cases c with h | ⟨h1, h2, h3, h4⟩
  · rw [h]
  · constructor
    · intro he
      have : (Char.toLower c).toNat = d.toNat := by rw [he]
      omega
    · intro he
      subst he
      omega

theorem toLower_idem (c : Char) :
    Char.toLower (Char.toLower c) = Char.toLower c := by
  rcases toLower_cases c with h | ⟨h1, h2, h3, h4⟩
  · rw [h, h]
  · exact toLower_eq_self (by omega)

end GitUtils

namespace GitUtils

/-- First replacement of `generateSafeBranchName`:
`.replace(/[~^:?*[\\\s]/g, "-")`. -/
def replaceForbidden (l : List Char) : List Char :=
  l.map fun c => if forbiddenChar c then '-' else c

/-- State machine implementing `.replace(/\.+/g, ".")`: the flag records
whether the previous character was a dot (in which case further dots of the
same run are dropped). -/
def collapseDotsAux : Bool → List Char → List Char
  | _, [] => []
  | prevDot, c :: rest =>
    if c = '.' then
      if prevDot then collapseDotsAux true rest
      else '.' :: collapseDotsAux true rest
    else
      c :: collapseDotsAux false rest

/-- Second replacement of `generateSafeBranchName`: collapse runs of dots. -/
def collapseDots (l : List Char) : List Char :=
  collapseDotsAux false l

/-- Third replacement of `generateSafeBranchName`:
`.replace(/^-+|-+$/g, "")` — strip leading and trailing dash runs. -/
def stripDashes (l : List Char) : List Char :=
  (((l.dropWhile fun c => c = '-').reverse.dropWhile fun c => c = '-')).reverse

/-- Final `.toLowerCase()` of the cleaning chain. -/
def lowerAll (l : List Char) : List Char :=
  l.map Char.toLower

/-- The cleaned base name: the four chained `replace`/`toLowerCase` calls of
`generateSafeBranchName` applied to `baseName`. -/
def cleanedBase (l : List Char) : List Char :=
  lowerAll (stripDashes (collapseDots (replaceForbidden l)))

/-- `safeName += "-" + suffix` when `suffix` is truthy (non-empty). -/
def withSuffix (base suffix : List Char) : List Char :=
  if suffix.isEmpty then cleanedBase base else cleanedBase base ++ '-' :: suffix

/-- `GitUtils.generateSafeBranchName(baseName, suffix)` on character lists:
clean the base, append the suffix, truncate to 200 characters. -/
def sanitizeChars (base suffix : List Char) : List Char :=
  if (withSuffix base suffix).length > 200 then (withSuffix base suffix).take 200
  else withSuffix base suffix

/-- `GitUtils.generateSafeBranchName(baseName, suffix)`. -/
def generateSafeBranchName (baseName suffix : String) : String :=
  ⟨sanitizeChars baseName.data suffix.data⟩

theorem mem_collapseDotsAux {c : Char} (l : List Char) :
    ∀ b, c ∈ collapseDotsAux b l → c ∈ l := by
  induction l with
  | nil => intro b h; simp [collapseDotsAux] at h
  | cons d rest ih =>
    intro b h
    simp only [collapseDotsAux] at h
    split_ifs at h with h1 h2
    · exact List.mem_cons_of_mem _ (ih true h)
    · rcases List.mem_cons.1 h with rfl | h
      · simp [h1]
      · exact List.mem_cons_of_mem _ (ih true h)
    · rcases List.mem_cons.1 h with rfl | h
      · exact List.mem_cons_self _ _
      · exact List.mem_cons_of_mem _ (ih false h)

theorem stripDashes_within (l : List Char) : stripDashes l <:+: l := by
  unfold stripDashes
  have h1 : (l.dropWhile fun c => c = '-') <:+ l := List.dropWhile_suffix _
  have h2 : ((l.dropWhile fun c => c = '-').reverse.dropWhile fun c => c = '-') <:+
      (l.dropWhile fun c => c = '-').reverse := List.dropWhile_suffix _
  have h3 := List.reverse_prefix.2 h2
  rw [List.reverse_reverse] at h3
  exact h3.isInfix.trans h1.isInfix

theorem forbiddenChar_of_mem_replaceForbidden {c : Char} {l : List Char}
    (h : c ∈ replaceForbidden l) : forbiddenChar c = false := by
  obtain ⟨d, _, rfl⟩ := List.mem_map.1 h
  by_cases hd : forbiddenChar d
  · rw [if_pos hd]
    decide
  · rw [if_neg hd]
    exact Bool.eq_false_iff.2 hd

theorem cleanedBase_no_forbidden {c : Char} {l : List Char}
    (h : c ∈ cleanedBase l) : forbiddenChar c = false := by
  obtain ⟨d, hd, rfl⟩ := List.mem_map.1 h
  have hd2 : d ∈ collapseDots (replaceForbidden l) :=
    (stripDashes_within _).sublist.subset hd
  have hd3 : d ∈ replaceForbidden l := mem_collapseDotsAux _ false hd2
  rw [forbiddenChar_toLower]
  exact forbiddenChar_of_mem_replaceForbidden hd3

end GitUtils

namespace GitUtils

/-- Adjacent-pair relation: the two characters are not both dots. -/
def notDD (a b : Char) : Prop :=
  ¬(a = '.' ∧ b = '.')

theorem head_collapseDotsAux_true (l : List Char) :
    ∀ c ∈ (collapseDotsAux true l).head?, c ≠ '.' := by
  induction l with
  | nil => simp [collapseDotsAux]
  | cons d rest ih =>
    by_cases hd : d = '.'
    · subst hd
      simpa [collapseDotsAux] using ih
    · simp [collapseDotsAux, hd]

theorem chain_collapseDotsAux (l : List Char) :
    ∀ b, List.Chain' notDD (collapseDotsAux b l) := by
  induction l with
  | nil => intro b; simp [collapseDotsAux, List.chain'_nil]
  | cons d rest ih =>
    intro b
    by_cases hd : d = '.'
    · subst hd
      cases b with
      | true => simpa [collapseDotsAux] using ih true
      | false =>
        simp only [collapseDotsAux, if_pos rfl, if_neg Bool.false_ne_true]
        refine List.chain'_cons'.2 ⟨?_, ih true⟩
        intro y hy hpair
        exact head_collapseDotsAux_true rest y hy hpair.2
    · simp only [collapseDotsAux, if_neg hd]
      refine List.chain'_cons'.2 ⟨?_, ih false⟩
      intro y hy hpair
      exact hd hpair.1

theorem collapseDotsAux_eq_self (l : List Char) :
    ∀ b, List.Chain' notDD l → (b = true → ∀ c ∈ l.head?, c ≠ '.') →
      collapseDotsAux b l = l := by
  induction l with
  | nil => intro b _ _; cases b <;> rfl
  | cons d rest ih =>
    intro b hch hb
    have hch2 := List.chain'_cons'.1 hch
    by_cases hd : d = '.'
    · subst hd
      cases b with
      | true =>
        exact absurd rfl (hb rfl '.' (by simp))
      | false =>
        show '.' :: collapseDotsAux true rest = '.' :: rest
        rw [ih true hch2.2 fun _ c hc hcd => (hch2.1 c hc) ⟨rfl, hcd⟩]
    · simp only [collapseDotsAux, if_neg hd]
      rw [ih false hch2.2 fun hf => absurd hf Bool.false_ne_true]

theorem collapseDots_eq_self {l : List Char} (h : List.Chain' notDD l) :
    collapseDots l = l :=
  collapseDotsAux_eq_self l false h fun hf => absurd hf Bool.false_ne_true

theorem head?_dropWhile (p : Char → Bool) (l : List Char) :
    ∀ c ∈ (l.dropWhile p).head?, p c = false := by
  induction l with
  | nil => simp
  | cons a rest ih =>
    by_cases h : p a
    · simpa [List.dropWhile_cons, h] using ih
    · simp [List.dropWhile_cons, h]

theorem dropWhile_eq_self_of_head (p : Char → Bool) (l : List Char)
    (h : ∀ c ∈ l.head?, p c = false) : l.dropWhile p = l := by
  cases l with
  | nil => rfl
  | cons a rest =>
    have := h a (by simp)
    simp [List.dropWhile_cons, this]

theorem stripDashes_eq_self {l : List Char}
    (h1 : ∀ c ∈ l.head?, c ≠ '-') (h2 : ∀ c ∈ l.getLast?, c ≠ '-') :
    stripDashes l = l := by
  unfold stripDashes
  rw [dropWhile_eq_self_of_head _ l
    fun c hc => decide_eq_false (h1 c hc)]
  rw [dropWhile_eq_self_of_head _ l.reverse ?_]
  · exact List.reverse_reverse l
  · intro c hc
    rw [List.head?_reverse] at hc
    exact decide_eq_false (h2 c hc)

theorem stripDashes_head {l : List Char} :
    ∀ c ∈ (stripDashes l).head?, c ≠ '-' := by
  intro c hc hcd
  subst hcd
  unfold stripDashes at hc
  rw [List.head?_reverse, Option.mem_def] at hc
  obtain ⟨t, ht⟩ : (((l.dropWhile fun c => c = '-').reverse.dropWhile
      fun c => c = '-')) <:+ (l.dropWhile fun c => c = '-').reverse :=
    List.dropWhile_suffix _
  have hur : (l.dropWhile fun c => c = '-').reverse.getLast? = some '-' := by
    rw [← ht, List.getLast?_append, hc]
    rfl
  rw [List.getLast?_reverse] at hur
  have := head?_dropWhile (fun c => decide (c = '-')) l '-' (Option.mem_def.2 hur)
  simp at this

theorem stripDashes_getLast {l : List Char} :
    ∀ c ∈ (stripDashes l).getLast?, c ≠ '-' := by
  intro c hc hcd
  subst hcd
  unfold stripDashes at hc
  rw [List.getLast?_reverse] at hc
  have := head?_dropWhile (fun c => c = '-') (l.dropWhile fun c => c = '-').reverse '-' hc
  simp at this

end GitUtils

namespace GitUtils

theorem replaceForbidden_eq_self {l : List Char}
    (h : ∀ c ∈ l, forbiddenChar c = false) : replaceForbidden l = l := by
  unfold replaceForbidden
  have heq : l.map (fun c => if forbiddenChar c then '-' else c) = l.map id :=
    List.map_congr_left fun c hc => by
      rw [if_neg (by simp [h c hc])]
      rfl
  rw [heq, List.map_id]

theorem chain_cleanedBase (l : List Char) :
    List.Chain' notDD (cleanedBase l) := by
  unfold cleanedBase lowerAll
  rw [List.chain'_map]
  have hdot : ('.' : Char).toNat < 65 ∨
      (90 < ('.' : Char).toNat ∧ ('.' : Char).toNat < 97) ∨ 122 < ('.' : Char).toNat := by
    decide
  have h1 : List.Chain' notDD (collapseDots (replaceForbidden l)) :=
    chain_collapseDotsAux _ false
  have h2 := h1.infix (stripDashes_within _)
  exact h2.imp fun a b hab hpair =>
    hab ⟨(toLower_eq_low_iff hdot).1 hpair.1, (toLower_eq_low_iff hdot).1 hpair.2⟩

theorem cleanedBase_head (l : List Char) :
    ∀ c ∈ (cleanedBase l).head?, c ≠ '-' := by
  intro c hc hcd
  subst hcd
  have hdash : ('-' : Char).toNat < 65 ∨
      (90 < ('-' : Char).toNat ∧ ('-' : Char).toNat < 97) ∨ 122 < ('-' : Char).toNat := by
    decide
  unfold cleanedBase lowerAll at hc
  rw [List.head?_map] at hc
  obtain ⟨d, hd, hdl⟩ := Option.map_eq_some'.1 (Option.mem_def.1 hc)
  exact stripDashes_head d (Option.mem_def.2 hd)
    ((toLower_eq_low_iff hdash).1 hdl)

theorem cleanedBase_getLast (l : List Char) :
    ∀ c ∈ (cleanedBase l).getLast?, c ≠ '-' := by
  intro c hc hcd
  subst hcd
  have hdash : ('-' : Char).toNat < 65 ∨
      (90 < ('-' : Char).toNat ∧ ('-' : Char).toNat < 97) ∨ 122 < ('-' : Char).toNat := by
    decide
  unfold cleanedBase lowerAll at hc
  rw [List.getLast?_map] at hc
  obtain ⟨d, hd, hdl⟩ := Option.map_eq_some'.1 (Option.mem_def.1 hc)
  exact stripDashes_getLast d (Option.mem_def.2 hd)
    ((toLower_eq_low_iff hdash).1 hdl)

theorem cleanedBase_lower (l : List Char) :
    ∀ c ∈ cleanedBase l, Char.toLower c = c := by
  intro c hc
  obtain ⟨d, _, rfl⟩ := List.mem_map.1 hc
  exact toLower_idem d

theorem lowerAll_cleanedBase (l : List Char) :
    lowerAll (cleanedBase l) = cleanedBase l := by
  unfold lowerAll
  have heq : (cleanedBase l).map Char.toLower = (cleanedBase l).map id :=
    List.map_congr_left fun c hc => cleanedBase_lower l c hc
  rw [heq, List.map_id]

theorem cleanedBase_idem (l : List Char) :
    cleanedBase (cleanedBase l) = cleanedBase l := by
  have h1 : replaceForbidden (cleanedBase l) = cleanedBase l :=
    replaceForbidden_eq_self fun c hc => cleanedBase_no_forbidden hc
  have h2 : collapseDots (cleanedBase l) = cleanedBase l :=
    collapseDots_eq_self (chain_cleanedBase l)
  have h3 : stripDashes (cleanedBase l) = cleanedBase l :=
    stripDashes_eq_self (cleanedBase_head l) (cleanedBase_getLast l)
  show lowerAll (stripDashes (collapseDots (replaceForbidden (cleanedBase l)))) =
    cleanedBase l
  rw [h1, h2, h3, lowerAll_cleanedBase]

theorem length_collapseDotsAux (l : List Char) :
    ∀ b, (collapseDotsAux b l).length ≤ l.length := by
  induction l with
  | nil => intro b; cases b <;> simp [collapseDotsAux]
  | cons d rest ih =>
    intro b
    simp only [collapseDotsAux]
    split_ifs
    · exact Nat.le_succ_of_le (ih true)
    · simpa using ih true
    · simpa using ih false

theorem length_cleanedBase (l : List Char) :
    (cleanedBase l).length ≤ l.length := by
  unfold cleanedBase lowerAll
  rw [List.length_map]
  calc (stripDashes (collapseDots (replaceForbidden l))).length
      ≤ (collapseDots (replaceForbidden l)).length :=
        (stripDashes_within _).sublist.length_le
    _ ≤ (replaceForbidden l).length := length_collapseDotsAux _ false
    _ = l.length := List.length_map _ _

theorem sanitizeChars_length (base suffix : List Char) :
    (sanitizeChars base suffix).length ≤ 200 := by
  unfold sanitizeChars
  split
  · rw [List.length_take]
    exact Nat.min_le_left _ _
  · omega

theorem withSuffix_no_forbidden {base suffix : List Char}
    (hs : ∀ c ∈ suffix, forbiddenChar c = false) :
    ∀ c ∈ withSuffix base suffix, forbiddenChar c = false := by
  intro c hc
  unfold withSuffix at hc
  split at hc
  · exact cleanedBase_no_forbidden hc
  · rcases List.mem_append.1 hc with h | h
    · exact cleanedBase_no_forbidden h
    · rcases List.mem_cons.1 h with rfl | h
      · decide
      · exact hs _ h

theorem sanitizeChars_no_forbidden {base suffix : List Char}
    (hs : ∀ c ∈ suffix, forbiddenChar c = false) :
    ∀ c ∈ sanitizeChars base suffix, forbiddenChar c = false := by
  intro c hc
  unfold sanitizeChars at hc
  split at hc
  · exact withSuffix_no_forbidden hs c ((List.take_sublist _ _).subset hc)
  · exact withSuffix_no_forbidden hs c hc

theorem sanitizeChars_nil_eq (base : List Char) :
    sanitizeChars base [] =
      if (cleanedBase base).length > 200 then (cleanedBase base).take 200
      else cleanedBase base := rfl

theorem sanitizeChars_no_trunc {base : List Char} (h : base.length ≤ 200) :
    sanitizeChars base [] = cleanedBase base := by
  rw [sanitizeChars_nil_eq, if_neg]
  have := length_cleanedBase base
  omega

theorem sanitizeChars_idem {base : List Char} (h : base.length ≤ 200) :
    sanitizeChars (sanitizeChars base []) [] = sanitizeChars base [] := by
  rw [sanitizeChars_no_trunc h,
    sanitizeChars_no_trunc (Nat.le_trans (length_cleanedBase base) h)]
  exact cleanedBase_idem base

theorem sanitizeChars_double_fix (base : List Char) :
    sanitizeChars (sanitizeChars (sanitizeChars base []) []) [] =
      sanitizeChars (sanitizeChars base []) [] :=
  sanitizeChars_idem (sanitizeChars_length base [])

theorem generateSafeBranchName_data (baseName suffix : String) :
    (generateSafeBranchName baseName suffix).data =
      sanitizeChars baseName.data suffix.data := rfl

theorem empty_string_data : ("" : String).data = [] := rfl

end GitUtils

set_option maxRecDepth 10000 in
set_option maxHeartbeats 1000000 in
/-- C3 counterexample: sanitization is not idempotent on a 201-character
input — truncation to 200 characters leaves a trailing dash that a second
application strips — and a suffix containing a forbidden character (here a
space) survives into the result untouched. -/
theorem generateSafeBranchName_claim_fails :
    GitUtils.generateSafeBranchName
        (GitUtils.generateSafeBranchName ⟨List.replicate 199 'a' ++ ['-', 'b']⟩ "") "" ≠
      GitUtils.generateSafeBranchName ⟨List.replicate 199 'a' ++ ['-', 'b']⟩ "" ∧
    ¬(∀ c ∈ (GitUtils.generateSafeBranchName "a" " ").data,
        GitUtils.forbiddenChar c = false) := by
  decide

set_option maxHeartbeats 1000000 in
/-- C3 (amended): the result of sanitization always has length at most 200;
it contains no forbidden character provided the appended suffix contains
none (the suffix is appended unsanitized); and, with an empty suffix,
sanitization is idempotent on every input of length at most 200 — and since
every output has length at most 200, a second application is always a
fixpoint. -/
theorem generateSafeBranchName_props (x suffix : String) :
    (GitUtils.generateSafeBranchName x suffix).length ≤ 200 ∧
    ((∀ c ∈ suffix.data, GitUtils.forbiddenChar c = false) →
      ∀ c ∈ (GitUtils.generateSafeBranchName x suffix).data,
        GitUtils.forbiddenChar c = false) ∧
    (x.length ≤ 200 →
      GitUtils.generateSafeBranchName (GitUtils.generateSafeBranchName x "") "" =
        GitUtils.generateSafeBranchName x "") ∧
    GitUtils.generateSafeBranchName
        (GitUtils.generateSafeBranchName (GitUtils.generateSafeBranchName x "") "") "" =
      GitUtils.generateSafeBranchName (GitUtils.generateSafeBranchName x "") "" := by
  refine ⟨GitUtils.sanitizeChars_length x.data suffix.data,
    fun hs c hc => GitUtils.sanitizeChars_no_forbidden hs c hc, fun hx => ?_, ?_⟩
  · apply String.ext
    simp only [GitUtils.generateSafeBranchName_data, GitUtils.empty_string_data]
    exact GitUtils.sanitizeChars_idem hx
  · apply String.ext
    simp only [GitUtils.generateSafeBranchName_data, GitUtils.empty_string_data]
    exact GitUtils.sanitizeChars_double_fix x.data

/-- Witness for C3 (amended) at `x = "Feature Login"`,
`suffix = "20240101120000"`. -/
theorem generateSafeBranchName_props_witness :
    (GitUtils.generateSafeBranchName "Feature Login" "20240101120000").length ≤ 200 ∧
    (∀ c ∈ (GitUtils.generateSafeBranchName "Feature Login" "20240101120000").data,
      GitUtils.forbiddenChar c = false) ∧
    GitUtils.generateSafeBranchName
        (GitUtils.generateSafeBranchName "Feature Login" "") "" =
      GitUtils.generateSafeBranchName "Feature Login" "" :=
  ⟨(generateSafeBranchName_props "Feature Login" "20240101120000").1,
   (generateSafeBranchName_props "Feature Login" "20240101120000").2.1 (by decide),
   (generateSafeBranchName_props "Feature Login" "20240101120000").2.2.1 (by decide)⟩

/-- C9 counterexample: `Feature/Login!!` does not sanitize to
`feature-login` — neither `/` nor `!` is in the forbidden character class
`[~^:?*[\\\s]`, so they are preserved. -/
theorem generateSafeBranchName_example_ne :
    GitUtils.generateSafeBranchName "Feature/Login!!" "" ≠ "feature-login" := by
  decide

/-- C9 (amended): sanitizing `Feature/Login!!` with no suffix yields
`feature/login!!`: only case-folding applies, because `/` and `!` are not
forbidden characters and are preserved unchanged. -/
theorem generateSafeBranchName_example :
    GitUtils.generateSafeBranchName "Feature/Login!!" "" = "feature/login!!" := by
  decide

/-- The string constants of `ERROR_CODES` — the closed set of typed kinds. -/
def ERROR_CODES : List String :=
  ["GIT_NOT_REPOSITORY", "GIT_DIRTY_WORKING_DIR", "GIT_BRANCH_EXISTS",
   "GIT_BRANCH_NOT_EXISTS", "GIT_MERGE_CONFLICT", "GIT_PUSH_FAILED",
   "GIT_FETCH_FAILED", "NETWORK_TIMEOUT", "NETWORK_CONNECTION_FAILED",
   "API_RATE_LIMIT", "AUTH_TOKEN_INVALID", "AUTH_TOKEN_MISSING",
   "AUTH_PERMISSION_DENIED", "CONFIG_INVALID", "CONFIG_MISSING",
   "INVALID_BRANCH_NAME", "INVALID_INPUT", "SYSTEM_ERROR", "UNKNOWN_ERROR"]

/-- A `ZhgitError`: typed error with message, code, original raw message and
context (the timestamp field is omitted as pure wall-clock metadata). -/
structure ZhgitError where
  message : String
  code : String
  originalError : String
  context : String
deriving Repr, DecidableEq

/-- An input to `ErrorHandler.handle`: either already a typed `ZhgitError`
(the `instanceof` branch) or a raw error carrying its message string. -/
inductive JsError
  | typed (e : ZhgitError)
  | raw (message : String)
deriving Repr, DecidableEq

namespace ErrorHandler

/-- `ErrorHandler.handle(error, context)`: return typed errors unchanged,
else classify the raw message through the ordered `includes` chain, falling
through to `UNKNOWN_ERROR`. -/
def handle (error : JsError) (context : String) : ZhgitError :=
  match error with
  | .typed e => e
  | .raw errorMessage =>
    if strIncludes errorMessage "not a git repository" then
      ⟨"当前目录不是 Git 仓库，请在 Git 仓库中执行此命令", "GIT_NOT_REPOSITORY",
        errorMessage, context⟩
    else if strIncludes errorMessage "Your branch is ahead" ||
        strIncludes errorMessage "Changes not staged" then
      ⟨"工作区有未提交的更改，请先提交或暂存更改", "GIT_DIRTY_WORKING_DIR",
        errorMessage, context⟩
    else if strIncludes errorMessage "already exists" then
      ⟨"分支已存在，请使用不同的分支名", "GIT_BRANCH_EXISTS", errorMessage, context⟩
    else if strIncludes errorMessage "CONFLICT" then
      ⟨"合并时发生冲突，请手动解决冲突后继续", "GIT_MERGE_CONFLICT",
        errorMessage, context⟩
    else if strIncludes errorMessage "timeout" ||
        strIncludes errorMessage "ETIMEDOUT" then
      ⟨"网络请求超时，请检查网络连接后重试", "NETWORK_TIMEOUT", errorMessage, context⟩
    else if strIncludes errorMessage "ENOTFOUND" ||
        strIncludes errorMessage "ECONNREFUSED" then
      ⟨"网络连接失败，请检查网络设置", "NETWORK_CONNECTION_FAILED",
        errorMessage, context⟩
    else if strIncludes errorMessage "rate limit" then
      ⟨"API 请求频率超限，请稍后重试", "API_RATE_LIMIT", errorMessage, context⟩
    else if strIncludes errorMessage "Bad credentials" ||
        strIncludes errorMessage "401" then
      ⟨"GitHub Token 无效，请使用 zhgit config 重新设置", "AUTH_TOKEN_INVALID",
        errorMessage, context⟩
    else if strIncludes errorMessage "403" then
      ⟨"权限不足，请检查 Token 权限或仓库访问权限", "AUTH_PERMISSION_DENIED",
        errorMessage, context⟩
    else
      ⟨"操作失败: " ++ errorMessage, "UNKNOWN_ERROR", errorMessage, context⟩

/-- The classification rules of `handle` as an ordered first-match table. -/
def classifierTable : List ((String → Bool) × String) :=
  [(fun m => strIncludes m "not a git repository", "GIT_NOT_REPOSITORY"),
   (fun m => strIncludes m "Your branch is ahead" ||
      strIncludes m "Changes not staged", "GIT_DIRTY_WORKING_DIR"),
   (fun m => strIncludes m "already exists", "GIT_BRANCH_EXISTS"),
   (fun m => strIncludes m "CONFLICT", "GIT_MERGE_CONFLICT"),
   (fun m => strIncludes m "timeout" || strIncludes m "ETIMEDOUT",
     "NETWORK_TIMEOUT"),
   (fun m => strIncludes m "ENOTFOUND" || strIncludes m "ECONNREFUSED",
     "NETWORK_CONNECTION_FAILED"),
   (fun m => strIncludes m "rate limit", "API_RATE_LIMIT"),
   (fun m => strIncludes m "Bad credentials" || strIncludes m "401",
     "AUTH_TOKEN_INVALID"),
   (fun m => strIncludes m "403", "AUTH_PERMISSION_DENIED")]

/-- First matching entry of the table wins; no match means unknown. -/
def classifySpec (m : String) : String :=
  ((classifierTable.find? fun entry => entry.1 m).map (fun entry => entry.2)).getD
    "UNKNOWN_ERROR"

end ErrorHandler

/-- C5: error classification is total and deterministic: a typed error is
returned unchanged (never re-classified); every raw message yields exactly
one typed error whose code is the first matching pattern of the fixed
ordered table (falling back to the unknown-operation-failure code), and
that code always lies in the closed `ERROR_CODES` set. -/
theorem errorHandler_handle_total :
    (∀ (e : ZhgitError) (context : String),
      ErrorHandler.handle (.typed e) context = e) ∧
    (∀ (m context : String),
      (ErrorHandler.handle (.raw m) context).code = ErrorHandler.classifySpec m ∧
      (ErrorHandler.handle (.raw m) context).code ∈ ERROR_CODES) := by
  refine ⟨fun e context => rfl, fun m context => ?_⟩
  simp only [ErrorHandler.handle, ErrorHandler.classifySpec,
    ErrorHandler.classifierTable]
  by_cases h1 : strIncludes m "not a git repository" = true
  · simp [List.find?, ERROR_CODES, h1]
  by_cases h2 : (strIncludes m "Your branch is ahead" ||
      strIncludes m "Changes not staged") = true
  · simp [List.find?, ERROR_CODES, h1, h2]
  by_cases h3 : strIncludes m "already exists" = true
  · simp [List.find?, ERROR_CODES, h1, h2, h3]
  by_cases h4 : strIncludes m "CONFLICT" = true
  · simp [List.find?, ERROR_CODES, h1, h2, h3, h4]
  by_cases h5 : (strIncludes m "timeout" || strIncludes m "ETIMEDOUT") = true
  · simp [List.find?, ERROR_CODES, h1, h2, h3, h4, h5]
  by_cases h6 : (strIncludes m "ENOTFOUND" || strIncludes m "ECONNREFUSED") = true
  · simp [List.find?, ERROR_CODES, h1, h2, h3, h4, h5, h6]
  by_cases h7 : strIncludes m "rate limit" = true
  · simp [List.find?, ERROR_CODES, h1, h2, h3, h4, h5, h6, h7]
  by_cases h8 : (strIncludes m "Bad credentials" || strIncludes m "401") = true
  · simp [List.find?, ERROR_CODES, h1, h2, h3, h4, h5, h6, h7, h8]
  by_cases h9 : strIncludes m "403" = true
  · simp [List.find?, ERROR_CODES, h1, h2, h3, h4, h5, h6, h7, h8, h9]
  simp [List.find?, ERROR_CODES, h1, h2, h3, h4, h5, h6, h7, h8, h9]

/-- Outcome of the retry wrapper: a success value, a thrown error, or the
`throw lastError` fallthrough with `lastError` still `undefined` (reachable
only when `maxRetries < 1`, mirroring JS throwing `undefined`). -/
inductive RetryResult (ε α : Type)
  | ok (a : α)
  | err (e : ε)
  | errUndefined
deriving DecidableEq, Repr

/-- The `for (attempt = 1; attempt <= maxRetries; attempt++)` loop of
`withRetry`.  `op k` is the outcome of the `k`-th invocation of the wrapped
operation (1-based); the fuel argument equals the number of remaining
permitted attempts.  Returns the outcome together with the number of
invocations actually made. -/
def retryGo (op : Nat → Except ε α) (shouldRetry : Option (ε → Bool))
    (maxRetries : Nat) : Nat → Nat → RetryResult ε α × Nat
  | 0, attempt => (.errUndefined, attempt - 1)
  | fuel + 1, attempt =>
    match op attempt with
    | .ok a => (.ok a, attempt)
    | .error e =>
      if (match shouldRetry with | some p => !p e | none => false) then
        (.err e, attempt)
      else if attempt == maxRetries then
        (.err e, attempt)
      else
        retryGo op shouldRetry maxRetries fuel (attempt + 1)

/-- `withRetry(maxRetries, delay, shouldRetry)` applied to an operation,
instrumented with the invocation count.  The delay only blocks time between
attempts and does not influence control flow, so it is carried but unused. -/
def withRetry (maxRetries : Nat) (delay : Nat)
    (shouldRetry : Option (ε → Bool)) (op : Nat → Except ε α) :
    RetryResult ε α × Nat :=
  let _ := delay
  retryGo op shouldRetry maxRetries maxRetries 1

theorem retryGo_all_fail {ε α : Type} (p : ε → Bool) (e : Nat → ε)
    (maxRetries : Nat) :
    ∀ fuel attempt, attempt + fuel = maxRetries + 1 → 1 ≤ attempt →
      attempt ≤ maxRetries →
      (∀ k, attempt ≤ k → k < maxRetries → p (e k) = true) →
      retryGo (α := α) (fun k => .error (e k)) (some p) maxRetries fuel attempt =
        (.err (e maxRetries), maxRetries) := by
  intro fuel
  induction fuel with
  | zero => intro attempt h1 h2 h3 _; omega
  | succ f ih =>
    intro attempt h1 h2 h3 hp
    simp only [retryGo]
    by_cases ha : attempt = maxRetries
    · subst ha
      simp
    · have hlt : attempt < maxRetries := by omega
      have hpa := hp attempt (Nat.le_refl _) hlt
      simp only [hpa, Bool.not_true, Bool.false_eq_true, if_false, beq_iff_eq,
        if_neg ha]
      exact ih (attempt + 1) (by omega) (by omega) (by omega)
        fun k hk1 hk2 => hp k (by omega) hk2

/-- C4: `withRetry(n, d, predicate)` on an operation failing at every
invocation: when the predicate accepts the errors of the first `n - 1`
attempts, the operation is invoked exactly `n` times and the error of the
final (`n`-th) invocation is raised; when the predicate rejects the very
first error, the operation is invoked exactly once and that first error is
raised. -/
theorem withRetry_always_fails {ε α : Type} (n delay : Nat) (p : ε → Bool)
    (e : Nat → ε) (hn : 1 ≤ n) :
    ((∀ k, 1 ≤ k → k < n → p (e k) = true) →
      withRetry (α := α) n delay (some p) (fun k => .error (e k)) =
        (.err (e n), n)) ∧
    (p (e 1) = false →
      withRetry (α := α) n delay (some p) (fun k => .error (e k)) =
        (.err (e 1), 1)) := by
  constructor
  · intro hp
    exact retryGo_all_fail p e n n 1 (by omega) (Nat.le_refl 1) hn hp
  · intro hp1
    unfold withRetry
    obtain ⟨m, rfl⟩ : ∃ m, n = m + 1 := ⟨n - 1, by omega⟩
    simp only [retryGo, hp1]
    rfl

/-- Witness for C4 at `n = 3`: with an always-true predicate an always-failing
operation is called exactly 3 times and the third error is raised; with an
always-false predicate it is called exactly once and the first error is
raised. -/
theorem withRetry_always_fails_witness :
    withRetry (ε := Nat) (α := Unit) 3 2000 (some fun _ => true)
        (fun k => .error k) = (.err 3, 3) ∧
    withRetry (ε := Nat) (α := Unit) 3 2000 (some fun _ => false)
        (fun k => .error k) = (.err 1, 1) :=
  ⟨(withRetry_always_fails 3 2000 (fun _ => true) (fun k => k)
      (by decide)).1 (fun k _ _ => rfl),
   (withRetry_always_fails 3 2000 (fun _ => false) (fun k => k)
      (by decide)).2 rfl⟩

namespace GitUtils

/-- What `execGitCommand` hands to the external-process layer: either a
single shell-interpreted command string (what the code actually builds via
`join(" ")` + `execSync`) or a discrete argv vector (what the spec asserts). -/
inductive SpawnRequest
  | shell (cmd : String)
  | vector (argv : List String)
deriving Repr, DecidableEq

/-- The dangerous-character check of `execGitCommand`:
`arg.includes(";") || arg.includes("|") || arg.includes("&") || arg.includes(backtick)`. -/
def hasDangerousChar (arg : String) : Bool :=
  strIncludes arg ";" || strIncludes arg "|" || strIncludes arg "&" ||
    strIncludes arg "`"

/-- JS `arg.trim()`: strip leading and trailing whitespace (modelled over
the ASCII whitespace characters). -/
def jsTrim (s : String) : String :=
  ⟨((s.data.dropWhile Char.isWhitespace).reverse.dropWhile
      Char.isWhitespace).reverse⟩

/-- Validation of a single argument inside the `args.map` callback: throw on
a dangerous character, otherwise return the trimmed argument. -/
def validateArg (arg : String) : Except String String :=
  if hasDangerousChar arg then
    .error ("Git 命令参数包含危险字符: " ++ arg)
  else
    .ok (jsTrim arg)

/-- The `args.map(...)` loop with exception propagation: the first thrown
validation error aborts the whole call. -/
def validateArgs : List String → Except String (List String)
  | [] => .ok []
  | a :: rest =>
    match validateArg a with
    | .error e => .error e
    | .ok b =>
      match validateArgs rest with
      | .error e => .error e
      | .ok bs => .ok (b :: bs)

/-- The part of `execGitCommand` that runs before any process is spawned:
validate every argument, then build the command
`["git", ...sanitizedArgs].join(" ")` — a single shell string. -/
def execGitCommandRequest (args : List String) : Except String SpawnRequest :=
  match validateArgs args with
  | .error e => .error e
  | .ok sanitizedArgs =>
    .ok (.shell (String.intercalate " " ("git" :: sanitizedArgs)))

/-- `execGitCommand` parameterised by the external runner (`execSync`):
validation failures never reach the runner; runner failures are re-wrapped
as `Git 操作失败`. -/
def execGitCommand (run : SpawnRequest → Except String String)
    (args : List String) : Except String String :=
  match execGitCommandRequest args with
  | .error e => .error e
  | .ok req =>
    match run req with
    | .ok out => .ok (jsTrim out)
    | .error e => .error ("Git 操作失败: " ++ e)

theorem validateArgs_error_of_danger {args : List String} {arg : String}
    (hmem : arg ∈ args) (hd : hasDangerousChar arg = true) :
    ∃ bad, hasDangerousChar bad = true ∧
      validateArgs args = .error ("Git 命令参数包含危险字符: " ++ bad) := by
  induction args with
  | nil => cases hmem
  | cons a rest ih =>
    by_cases ha : hasDangerousChar a = true
    · exact ⟨a, ha, by simp [validateArgs, validateArg, ha]⟩
    · have hmem2 : arg ∈ rest := by
        rcases List.mem_cons.1 hmem with rfl | h
        · exact absurd hd ha
        · exact h
      obtain ⟨bad, hbad, heq⟩ := ih hmem2
      exact ⟨bad, hbad, by simp [validateArgs, validateArg, ha, heq]⟩

end GitUtils

/-- C6 counterexample: for the harmless argument list `["status",
"--porcelain"]` the spawn request built by `execGitCommand` is the single
shell-interpreted string `git status --porcelain` — not the discrete argv
vector the claim asserts. -/
theorem execGitCommand_shell_not_vector :
    GitUtils.execGitCommandRequest ["status", "--porcelain"] =
      Except.ok (GitUtils.SpawnRequest.shell "git status --porcelain") ∧
    GitUtils.execGitCommandRequest ["status", "--porcelain"] ≠
      Except.ok (GitUtils.SpawnRequest.vector ["git", "status", "--porcelain"]) := by
  refine ⟨rfl, fun h => ?_⟩
  have h2 : GitUtils.SpawnRequest.shell "git status --porcelain" =
      GitUtils.SpawnRequest.vector ["git", "status", "--porcelain"] := by
    have h1 : GitUtils.execGitCommandRequest ["status", "--porcelain"] =
        Except.ok (GitUtils.SpawnRequest.shell "git status --porcelain") := rfl
    rw [h1] at h
    exact Except.ok.inj h
  cases h2

/-- C6 (amended): an argument containing `;`, `|`, `&` or a backtick makes
`execGitCommand` fail with the dangerous-character validation error before
any spawn request is built — the outcome is the same for every runner, which
is never consulted — and when validation passes, the arguments are joined
with spaces into one shell-interpreted command string, never a discrete
argv vector. -/
theorem execGitCommand_validation (args : List String) (arg : String) :
    (arg ∈ args → GitUtils.hasDangerousChar arg = true →
      (∃ bad, GitUtils.hasDangerousChar bad = true ∧
        GitUtils.execGitCommandRequest args =
          .error ("Git 命令参数包含危险字符: " ++ bad)) ∧
      ∀ run1 run2, GitUtils.execGitCommand run1 args =
        GitUtils.execGitCommand run2 args) ∧
    (∀ req, GitUtils.execGitCommandRequest args = .ok req →
      ∃ cmd, req = GitUtils.SpawnRequest.shell cmd) := by
  constructor
  · intro hmem hd
    obtain ⟨bad, hbad, heq⟩ := GitUtils.validateArgs_error_of_danger hmem hd
    constructor
    · exact ⟨bad, hbad, by simp [GitUtils.execGitCommandRequest, heq]⟩
    · intro run1 run2
      simp [GitUtils.execGitCommand, GitUtils.execGitCommandRequest, heq]
  · intro req hreq
    unfold GitUtils.execGitCommandRequest at hreq
    cases hv : GitUtils.validateArgs args with
    | error e => rw [hv] at hreq; cases hreq
    | ok sanitizedArgs =>
      rw [hv] at hreq
      cases hreq
      exact ⟨_, rfl⟩

/-- Runner stub that always succeeds (used only to witness that the result
of a rejected call does not depend on the runner). -/
def okRunner : GitUtils.SpawnRequest → Except String String :=
  fun _ => .ok "ok"

/-- Runner stub that always fails. -/
def failRunner : GitUtils.SpawnRequest → Except String String :=
  fun _ => .error "boom"

/-- Witness for C6 (amended) at the argument `status; rm -rf /`: the call is
rejected with the validation error and two arbitrary runners observe the
same outcome. -/
theorem execGitCommand_validation_witness :
    (∃ bad, GitUtils.hasDangerousChar bad = true ∧
      GitUtils.execGitCommandRequest ["status; rm -rf /"] =
        .error ("Git 命令参数包含危险字符: " ++ bad)) ∧
    GitUtils.execGitCommand okRunner ["status; rm -rf /"] =
      GitUtils.execGitCommand failRunner ["status; rm -rf /"] :=
  ⟨((execGitCommand_validation ["status; rm -rf /"] "status; rm -rf /").1
      (by decide) (by decide)).1,
   ((execGitCommand_validation ["status; rm -rf /"] "status; rm -rf /").1
      (by decide) (by decide)).2 okRunner failRunner⟩

namespace PushCommand

/-- The externally observable steps of `processPush`, one event per external
invocation (fetch and push may appear several times through the retries). -/
inductive StepEv
  | stepCreate
  | stepFetch
  | stepMerge
  | stepPush
  | stepCreatePR
  | stepSwitchBack
deriving Repr, DecidableEq

/-- Terminal outcome of a push-flow run: normal completion, an explicit
`process.exit(code)`, or a propagated typed error (which `action` displays
before exiting 1). -/
inductive POutcome
  | done
  | exited (code : Nat)
  | failed (e : ZhgitError)
deriving Repr, DecidableEq

/-- A recorded run: its outcome, the ordered external-step trace, the
`Logger.info` lines printed by the merge-conflict handler, and the branch
name handed to the push step (when the push step was reached). -/
structure PushRun where
  outcome : POutcome
  trace : List StepEv
  logs : List String
  pushedBranch : Option String
deriving Repr, DecidableEq

/-- The environment of one run: the result of each underlying git/API
operation.  A `some m` is the raw message of the error thrown by that step
(before classification); fetch and push are indexed by the attempt number
since they are wrapped in the retry policy. -/
structure PushEnv where
  newBranchExists : Bool
  createErr : Option String
  fetchErr : Nat → Option String
  mergeErr : Option String
  pushErr : Nat → Option String
  prErr : Option String
  switchErr : Option String

/-- The patterns of `shouldRetryNetworkError`. -/
def retryablePatterns : List String :=
  ["timeout", "ETIMEDOUT", "ENOTFOUND", "ECONNREFUSED", "ECONNRESET",
   "socket hang up", "rate limit"]

/-- `shouldRetryNetworkError(error)`: case-insensitive scan of the error
message for the retryable patterns. -/
def shouldRetryNetworkError (e : ZhgitError) : Bool :=
  retryablePatterns.any fun pattern =>
    strIncludes e.message.toLower pattern.toLower

/-- A step body wrapped in `safeExecute(op, context)`: a raw failure is
classified once by `ErrorHandler.handle` and re-thrown typed. -/
def stepResult (rawErr : Option String) (context : String) :
    Except ZhgitError Unit :=
  match rawErr with
  | none => .ok ()
  | some m => .error (ErrorHandler.handle (.raw m) context)

/-- The conflict-remediation script printed by `mergeTargetBranch` before
`process.exit(1)`. -/
def mergeConflictGuide (branch : String) : List String :=
  ["🔧 合并冲突解决指南:",
   "1. 手动解决冲突文件中的冲突标记",
   "2. git add .",
   "3. git commit -m \"resolve conflicts\"",
   "4. zhgit push " ++ branch ++ " (重新执行推送)"]

/-- The tail of `processPush` from the push step on: retried push, then PR
creation, then best-effort switch back to the original branch. -/
def afterMergeSteps (env : PushEnv) (newBranch : String) (tr : List StepEv) :
    PushRun :=
  match withRetry 3 2000 (some shouldRetryNetworkError)
      (fun k => stepResult (env.pushErr k) "推送分支") with
  | (res, count) =>
    let tr1 := tr ++ List.replicate count .stepPush
    match res with
    | .err e => ⟨.failed e, tr1, [], some newBranch⟩
    | .errUndefined =>
      ⟨.failed (ErrorHandler.handle (.raw "undefined") "push操作"), tr1, [],
        some newBranch⟩
    | .ok _ =>
      match env.prErr with
      | some m =>
        ⟨.failed (ErrorHandler.handle (.raw m) "创建PR"),
          tr1 ++ [.stepCreatePR], [], some newBranch⟩
      | none =>
        match env.switchErr with
        | some m =>
          ⟨.failed (ErrorHandler.handle (.raw m) "切换分支"),
            tr1 ++ [.stepCreatePR, .stepSwitchBack], [], some newBranch⟩
        | none =>
          ⟨.done, tr1 ++ [.stepCreatePR, .stepSwitchBack], [], some newBranch⟩

/-- The `already-merge-branch` test of `action`:
`currentBranch.includes("-to-" + branch + "-")`. -/
def isMergeBranchOf (currentBranch target : String) : Bool :=
  strIncludes currentBranch ("-to-" ++ target ++ "-")

/-- `PushCommand.processPush(branch, username, currentBranch, isMergeBranch)`:
when on a merge branch, go straight to push (on the current branch);
otherwise generate the sanitized working-branch name, check for collision,
create the branch, fetch the target with retry, merge it (conflict exits 1
with the remediation guide, other merge errors propagate), then continue
with push / PR / switch-back. -/
def processPush (env : PushEnv) (branch username currentBranch timestamp : String)
    (isMergeBranch : Bool) : PushRun :=
  if isMergeBranch then
    afterMergeSteps env currentBranch []
  else
    let newBranch := GitUtils.generateSafeBranchName
      (username ++ "-push-" ++ currentBranch ++ "-to-" ++ branch) timestamp
    if env.newBranchExists then
      ⟨.failed ⟨"分支 " ++ newBranch ++ " 已存在，请稍后重试", "GIT_BRANCH_EXISTS",
        "", ""⟩, [], [], none⟩
    else
      match env.createErr with
      | some m =>
        ⟨.failed (ErrorHandler.handle (.raw m) "创建分支"), [.stepCreate], [],
          none⟩
      | none =>
        match withRetry 3 2000 (some shouldRetryNetworkError)
            (fun k => stepResult (env.fetchErr k) "拉取远程分支") with
        | (fres, fcount) =>
          let tr0 := .stepCreate :: List.replicate fcount .stepFetch
          match fres with
          | .err e => ⟨.failed e, tr0, [], none⟩
          | .errUndefined =>
            ⟨.failed (ErrorHandler.handle (.raw "undefined") "push操作"), tr0,
              [], none⟩
          | .ok _ =>
            match env.mergeErr with
            | some m =>
              if (ErrorHandler.handle (.raw m) "合并分支").code =
                  "GIT_MERGE_CONFLICT" then
                ⟨.exited 1, tr0 ++ [.stepMerge], mergeConflictGuide branch, none⟩
              else
                ⟨.failed (ErrorHandler.handle (.raw m) "合并分支"),
                  tr0 ++ [.stepMerge], [], none⟩
            | none => afterMergeSteps env newBranch (tr0 ++ [.stepMerge])

theorem withRetry_first_ok {ε α : Type} (n delay : Nat)
    (sr : Option (ε → Bool)) (op : Nat → Except ε α) (a : α)
    (h : op 1 = .ok a) (hn : 1 ≤ n) :
    withRetry n delay sr op = (.ok a, 1) := by
  unfold withRetry
  obtain ⟨m, rfl⟩ : ∃ m, n = m + 1 := ⟨n - 1, by omega⟩
  simp [retryGo, h]

end PushCommand

namespace PushCommand

theorem retryGo_count_ge {ε α : Type} (op : Nat → Except ε α)
    (sr : Option (ε → Bool)) (mr : Nat) :
    ∀ fuel attempt, 1 ≤ fuel →
      attempt ≤ (retryGo op sr mr fuel attempt).2 := by
  intro fuel
  induction fuel with
  | zero => intro attempt h; omega
  | succ f ih =>
    intro attempt _
    cases hop : op attempt with
    | ok a => simp [retryGo, hop]
    | error e =>
      have hrec : attempt ≤ (retryGo op sr mr f (attempt + 1)).2 := by
        cases f with
        | zero =>
          show attempt ≤ attempt + 1 - 1
          omega
        | succ f2 =>
          have hih := ih (attempt + 1) (by omega)
          omega
      simp only [retryGo, hop]
      split
      · exact Nat.le_refl attempt
      · split
        · exact Nat.le_refl attempt
        · exact hrec

theorem withRetry_count_ge_one {ε α : Type} (op : Nat → Except ε α)
    (sr : Option (ε → Bool)) (n delay : Nat) (hn : 1 ≤ n) :
    1 ≤ (withRetry n delay sr op).2 :=
  retryGo_count_ge op sr n n 1 hn

theorem afterMergeSteps_facts (env : PushEnv) (nb : String) (tr : List StepEv) :
    ∃ count rest, 1 ≤ count ∧
      (afterMergeSteps env nb tr).trace =
        tr ++ List.replicate count .stepPush ++ rest ∧
      (∀ e ∈ rest, e = StepEv.stepCreatePR ∨ e = StepEv.stepSwitchBack) ∧
      (afterMergeSteps env nb tr).pushedBranch = some nb ∧
      (env.pushErr 1 = none → StepEv.stepCreatePR ∈ rest) := by
  rcases hw : withRetry 3 2000 (some shouldRetryNetworkError)
      (fun k => stepResult (env.pushErr k) "推送分支") with ⟨res, count⟩
  have hcount : 1 ≤ count := by
    have := withRetry_count_ge_one
      (fun k => stepResult (env.pushErr k) "推送分支")
      (some shouldRetryNetworkError) 3 2000 (by omega)
    rw [hw] at this
    exact this
  have hok : env.pushErr 1 = none → res = .ok () ∧ count = 1 := by
    intro hp1
    have h1 : withRetry 3 2000 (some shouldRetryNetworkError)
        (fun k => stepResult (env.pushErr k) "推送分支") = (.ok (), 1) :=
      withRetry_first_ok 3 2000 _ _ () (by simp [hp1, stepResult]) (by omega)
    rw [hw] at h1
    exact ⟨congrArg Prod.fst h1, congrArg Prod.snd h1⟩
  cases res with
  | err e =>
    refine ⟨count, [], hcount, ?_, by simp, ?_, ?_⟩
    · simp [afterMergeSteps, hw]
    · simp [afterMergeSteps, hw]
    · intro hp1
      exact absurd (hok hp1).1 (by simp)
  | errUndefined =>
    refine ⟨count, [], hcount, ?_, by simp, ?_, ?_⟩
    · simp [afterMergeSteps, hw]
    · simp [afterMergeSteps, hw]
    · intro hp1
      exact absurd (hok hp1).1 (by simp)
  | ok a =>
    cases hpr : env.prErr with
    | some m =>
      refine ⟨count, [.stepCreatePR], hcount, ?_, by simp, ?_, fun _ => by simp⟩
      · simp [afterMergeSteps, hw, hpr]
      · simp [afterMergeSteps, hw, hpr]
    | none =>
      cases hsw : env.switchErr with
      | some m =>
        refine ⟨count, [.stepCreatePR, .stepSwitchBack], hcount, ?_, ?_,
          ?_, fun _ => by simp⟩
        · simp [afterMergeSteps, hw, hpr, hsw]
        · intro e he
          simp at he
          tauto
        · simp [afterMergeSteps, hw, hpr, hsw]
      | none =>
        refine ⟨count, [.stepCreatePR, .stepSwitchBack], hcount, ?_, ?_,
          ?_, fun _ => by simp⟩
        · simp [afterMergeSteps, hw, hpr, hsw]
        · intro e he
          simp at he
          tauto
        · simp [afterMergeSteps, hw, hpr, hsw]

end PushCommand

/-- C7: in a non-merge-branch push run whose create and first fetch succeed
and whose merge step throws a raw message `m`: when `m` classifies as
merge-conflict the run stops with exit code 1, the remediation script is
printed, the merge was attempted exactly once (a single merge event, never
retried) and the push step is never reached; when `m` classifies as any
other kind the classified error propagates as the run's failure, again
without reaching the push step. -/
theorem mergeConflict_halts (env : PushCommand.PushEnv)
    (branch username currentBranch ts m : String)
    (hb : env.newBranchExists = false)
    (hc : env.createErr = none)
    (hf : env.fetchErr 1 = none)
    (hm : env.mergeErr = some m) :
    ((ErrorHandler.handle (.raw m) "合并分支").code = "GIT_MERGE_CONFLICT" →
      PushCommand.processPush env branch username currentBranch ts false =
        ⟨.exited 1,
         [.stepCreate, .stepFetch, .stepMerge],
         PushCommand.mergeConflictGuide branch, none⟩) ∧
    ((ErrorHandler.handle (.raw m) "合并分支").code ≠ "GIT_MERGE_CONFLICT" →
      PushCommand.processPush env branch username currentBranch ts false =
        ⟨.failed (ErrorHandler.handle (.raw m) "合并分支"),
         [.stepCreate, .stepFetch, .stepMerge], [], none⟩) := by
  have hfetch : withRetry 3 2000 (some PushCommand.shouldRetryNetworkError)
      (fun k => PushCommand.stepResult (env.fetchErr k) "拉取远程分支") =
      (.ok (), 1) :=
    PushCommand.withRetry_first_ok 3 2000 _ _ ()
      (by simp [hf, PushCommand.stepResult]) (by omega)
  constructor
  · intro h
    simp [PushCommand.processPush, hb, hc, hm, hfetch, h]
  · intro h
    simp [PushCommand.processPush, hb, hc, hm, hfetch, h]

/-- Environment of the C7 witness: everything succeeds except the merge,
which throws a message containing `CONFLICT`. -/
def conflictEnv : PushCommand.PushEnv :=
  { newBranchExists := false
    createErr := none
    fetchErr := fun _ => none
    mergeErr := some "Git 操作失败: Automatic merge failed: CONFLICT (content): fix conflicts and run the command again"
    pushErr := fun _ => none
    prErr := none
    switchErr := none }

/-- Witness for C7: the concrete conflicting run exits with code 1 after
create, fetch and exactly one merge attempt, printing the remediation
guide, with the push step never reached. -/
theorem mergeConflict_halts_witness :
    PushCommand.processPush conflictEnv "dev" "alice" "feature-x"
        "20240101120000" false =
      ⟨.exited 1, [.stepCreate, .stepFetch, .stepMerge],
       PushCommand.mergeConflictGuide "dev", none⟩ :=
  (mergeConflict_halts conflictEnv "dev" "alice" "feature-x" "20240101120000"
      _ rfl rfl rfl rfl).1 (by decide)

/-- C8: whenever the current branch already contains the infix
`-to-<target>-`, the run of `processPush` (invoked, as `action` does, with
that detection result) executes no branch-creation, fetch or merge step;
its first external step is the push, performed on the current branch
itself; and as soon as the first push attempt succeeds the
pull-request-creation step follows. -/
theorem alreadyMergeBranch_skips (env : PushCommand.PushEnv)
    (branch username currentBranch ts : String)
    (h : PushCommand.isMergeBranchOf currentBranch branch = true) :
    PushCommand.StepEv.stepCreate ∉
      (PushCommand.processPush env branch username currentBranch ts
        (PushCommand.isMergeBranchOf currentBranch branch)).trace ∧
    PushCommand.StepEv.stepFetch ∉
      (PushCommand.processPush env branch username currentBranch ts
        (PushCommand.isMergeBranchOf currentBranch branch)).trace ∧
    PushCommand.StepEv.stepMerge ∉
      (PushCommand.processPush env branch username currentBranch ts
        (PushCommand.isMergeBranchOf currentBranch branch)).trace ∧
    (PushCommand.processPush env branch username currentBranch ts
        (PushCommand.isMergeBranchOf currentBranch branch)).trace.head? =
      some PushCommand.StepEv.stepPush ∧
    (PushCommand.processPush env branch username currentBranch ts
        (PushCommand.isMergeBranchOf currentBranch branch)).pushedBranch =
      some currentBranch ∧
    (env.pushErr 1 = none →
      PushCommand.StepEv.stepPush ∈
        (PushCommand.processPush env branch username currentBranch ts
          (PushCommand.isMergeBranchOf currentBranch branch)).trace ∧
      PushCommand.StepEv.stepCreatePR ∈
        (PushCommand.processPush env branch username currentBranch ts
          (PushCommand.isMergeBranchOf currentBranch branch)).trace) := by
  rw [h]
  have hrun : PushCommand.processPush env branch username currentBranch ts true =
      PushCommand.afterMergeSteps env currentBranch [] := by
    simp [PushCommand.processPush]
  rw [hrun]
  obtain ⟨count, rest, hcount, htrace, hrest, hbranch, hpr⟩ :=
    PushCommand.afterMergeSteps_facts env currentBranch []
  obtain ⟨c2, rfl⟩ : ∃ c2, count = c2 + 1 := ⟨count - 1, by omega⟩
  refine ⟨?_, ?_, ?_, ?_, hbranch, ?_⟩
  · rw [htrace]
    intro hmem
    simp [List.mem_append, List.mem_replicate] at hmem
    rcases hrest _ hmem with h1 | h1 <;> cases h1
  · rw [htrace]
    intro hmem
    simp [List.mem_append, List.mem_replicate] at hmem
    rcases hrest _ hmem with h1 | h1 <;> cases h1
  · rw [htrace]
    intro hmem
    simp [List.mem_append, List.mem_replicate] at hmem
    rcases hrest _ hmem with h1 | h1 <;> cases h1
  · rw [htrace]
    simp [List.replicate_succ]
  · intro hp1
    constructor
    · rw [htrace]
      simp [List.replicate_succ]
    · rw [htrace]
      simp
      exact hpr hp1

/-- Environment of the C8 witness: every step succeeds. -/
def allOkEnv : PushCommand.PushEnv :=
  { newBranchExists := false
    createErr := none
    fetchErr := fun _ => none
    mergeErr := none
    pushErr := fun _ => none
    prErr := none
    switchErr := none }

/-- Witness for C8: `push dev` on the branch
`alice-push-foo-to-dev-20240101120000` detects the `-to-dev-` infix, skips
the merge step, starts with the push on the current branch and reaches PR
creation. -/
theorem alreadyMergeBranch_skips_witness :
    PushCommand.isMergeBranchOf "alice-push-foo-to-dev-20240101120000" "dev" =
        true ∧
    PushCommand.StepEv.stepMerge ∉
      (PushCommand.processPush allOkEnv "dev" "alice"
        "alice-push-foo-to-dev-20240101120000" "20240202101010"
        (PushCommand.isMergeBranchOf "alice-push-foo-to-dev-20240101120000"
          "dev")).trace ∧
    (PushCommand.processPush allOkEnv "dev" "alice"
        "alice-push-foo-to-dev-20240101120000" "20240202101010"
        (PushCommand.isMergeBranchOf "alice-push-foo-to-dev-20240101120000"
          "dev")).trace.head? = some PushCommand.StepEv.stepPush ∧
    (PushCommand.processPush allOkEnv "dev" "alice"
        "alice-push-foo-to-dev-20240101120000" "20240202101010"
        (PushCommand.isMergeBranchOf "alice-push-foo-to-dev-20240101120000"
          "dev")).pushedBranch = some "alice-push-foo-to-dev-20240101120000" ∧
    PushCommand.StepEv.stepCreatePR ∈
      (PushCommand.processPush allOkEnv "dev" "alice"
        "alice-push-foo-to-dev-20240101120000" "20240202101010"
        (PushCommand.isMergeBranchOf "alice-push-foo-to-dev-20240101120000"
          "dev")).trace :=
  have hthm := alreadyMergeBranch_skips allOkEnv "dev" "alice"
    "alice-push-foo-to-dev-20240101120000" "20240202101010" (by decide)
  ⟨by decide, hthm.2.2.1, hthm.2.2.2.1, hthm.2.2.2.2.1, (hthm.2.2.2.2.2 rfl).2⟩
